import Mathlib

/-!
Verification of the recursive powerset generator in
`Review_of_CSharp2_Features_Part_III_Resources/STLSubSets/STLSubSets.cpp`.

The C++ `subsetsCore` works on a *remainder* range (iterator pair
`remainderSequenceBegin .. remainderSequenceEnd`) and an *accumulated*
sequence (iterator pair `inputSequenceBegin .. inputSequenceEnd`, the
elements already chosen, in original order).  When the remainder is empty
it emits one copy of the accumulated sequence into the destination
`insert_iterator`; otherwise it appends the head of the remainder to a
copy of the accumulated sequence and recurses on the tail (the "include"
branch), then recurses on the tail with the accumulated sequence unchanged
(the "exclude" branch).  `subsets` seeds the recursion with the whole
input as remainder and an empty accumulated sequence.

Sequences are embedded as `List α`; the destination `insert_iterator`
appends results in emission order, so the emitted collection is embedded
as the `List (List α)` of results in emission order.  A second,
sink-threading embedding (`subsetsCoreS`) makes the destination state
explicit for the frame/determinism properties, and a fuel-indexed
embedding (`subsetsCoreFuel`) makes the recursion depth explicit.
-/

/-- Core of the generator, from `subsetsCore` in STLSubSets.cpp: if the
remainder range is empty, emit the accumulated sequence; otherwise emit
the whole "include head" branch, then the whole "exclude head" branch. -/
def subsetsCore {α : Type} (remainder acc : List α) : List (List α) :=
  match remainder with
  | [] => [acc]
  | h :: t => subsetsCore t (acc ++ [h]) ++ subsetsCore t acc

/-- Entry point, from `subsets` in STLSubSets.cpp: seed the recursion with
the full input as remainder and the empty sequence as accumulator. -/
def subsets {α : Type} (input : List α) : List (List α) :=
  subsetsCore input []

/-- Sink-threading embedding of `subsetsCore`: the destination
`insert_iterator` state is passed explicitly and each base case appends
one result to it. -/
def subsetsCoreS {α : Type} (remainder acc : List α)
    (sink : List (List α)) : List (List α) :=
  match remainder with
  | [] => sink ++ [acc]
  | h :: t => subsetsCoreS t acc (subsetsCoreS t (acc ++ [h]) sink)

/-- Sink-threading embedding of the `subsets` entry point. -/
def subsetsS {α : Type} (input : List α) (sink : List (List α)) :
    List (List α) :=
  subsetsCoreS input [] sink

/-- Fuel-indexed embedding of `subsetsCore`: each recursive call consumes
one unit of fuel, so `some` results witness a recursion-depth bound. -/
def subsetsCoreFuel {α : Type} (fuel : Nat) (remainder acc : List α) :
    Option (List (List α)) :=
  match remainder with
  | [] => some [acc]
  | h :: t =>
    match fuel with
    | 0 => none
    | f + 1 =>
      match subsetsCoreFuel f t (acc ++ [h]), subsetsCoreFuel f t acc with
      | some a, some b => some (a ++ b)
      | _, _ => none

/-- All inclusion/exclusion masks of length `n`, in the order the
generator decides them: the "include" (true) half before the "exclude"
(false) half, first element decided first. -/
def masks : Nat → List (List Bool)
  | 0 => [[]]
  | n + 1 => (masks n).map (true :: ·) ++ (masks n).map (false :: ·)

/-- Elements of `l` selected at the positions where the mask is true. -/
def select {α : Type} : List α → List Bool → List α
  | [], _ => []
  | _, [] => []
  | a :: l, b :: m => if b then a :: select l m else select l m

/- ### Helper lemmas -/

/-- Running the core with accumulator `acc` prepends `acc` to every result
of running it with an empty accumulator. -/
theorem subsetsCore_eq_map_append {α : Type} (remainder acc : List α) :
    subsetsCore remainder acc =
      (subsetsCore remainder []).map (acc ++ ·) := by
  induction remainder generalizing acc with
  | nil => simp [subsetsCore]
  | cons hd t ih =>
      simp only [subsetsCore, List.nil_append, ih (acc ++ [hd]), ih acc,
        ih [hd], List.map_append, List.map_map]
      simp [Function.comp_def, List.append_assoc]

/-- The core emits `2 ^ length remainder` results. -/
theorem length_subsetsCore {α : Type} (remainder acc : List α) :
    (subsetsCore remainder acc).length = 2 ^ remainder.length := by
  induction remainder generalizing acc with
  | nil => rfl
  | cons hd t ih =>
      simp [subsetsCore, ih, List.length_append, pow_succ]
      ring

/-- Every emitted result is the accumulator followed by a sublist of the
remainder. -/
theorem mem_subsetsCore {α : Type} {remainder acc r : List α}
    (hr : r ∈ subsetsCore remainder acc) :
    ∃ s, s.Sublist remainder ∧ r = acc ++ s := by
  induction remainder generalizing acc with
  | nil =>
      refine ⟨[], List.Sublist.refl _, ?_⟩
      simp [subsetsCore] at hr
      simp [hr]
  | cons hd t ih =>
      simp only [subsetsCore, List.mem_append] at hr
      rcases hr with hr | hr
      · obtain ⟨s, hs, hrs⟩ := ih hr
        exact ⟨hd :: s, List.Sublist.cons₂ hd hs, by simp [hrs]⟩
      · obtain ⟨s, hs, hrs⟩ := ih hr
        exact ⟨s, List.Sublist.cons hd hs, hrs⟩

/-- The sink-threading core leaves the previous sink contents in place and
appends exactly the pure core's results after them. -/
theorem subsetsCoreS_eq {α : Type} (remainder acc : List α)
    (sink : List (List α)) :
    subsetsCoreS remainder acc sink = sink ++ subsetsCore remainder acc := by
  induction remainder generalizing acc sink with
  | nil => rfl
  | cons hd t ih => simp [subsetsCoreS, subsetsCore, ih]

/-- Fuel no smaller than the remainder's length suffices: the fuel-indexed
core then succeeds and agrees with the pure core. -/
theorem subsetsCoreFuel_eq {α : Type} (remainder : List α) :
    ∀ (fuel : Nat) (acc : List α), remainder.length ≤ fuel →
      subsetsCoreFuel fuel remainder acc = some (subsetsCore remainder acc) := by
  induction remainder with
  | nil => intro fuel acc _; simp [subsetsCoreFuel, subsetsCore]
  | cons hd t ih =>
      intro fuel acc hf
      cases fuel with
      | zero => simp at hf
      | succ f =>
          have ht : t.length ≤ f := by simpa using hf
          simp [subsetsCoreFuel, subsetsCore, ih f (acc ++ [hd]) ht, ih f acc ht]

/-- Membership in `masks n` is exactly being a boolean list of length `n`. -/
theorem mem_masks {n : Nat} {m : List Bool} : m ∈ masks n ↔ m.length = n := by
  induction n generalizing m with
  | zero => simp [masks, List.length_eq_zero]
  | succ k ih =>
      cases m with
      | nil => simp [masks]
      | cons b m' =>
          cases b <;> simp [masks, ih]

/-- Counting a list with head `c` among lists mapped under `(c :: ·)`
counts the tails. -/
theorem count_map_cons_masks (c : Bool) (L : List (List Bool)) (m : List Bool) :
    (L.map (c :: ·)).count (c :: m) = L.count m := by
  induction L with
  | nil => rfl
  | cons x L ih =>
      simp only [List.map_cons, List.count_cons, ih]
      by_cases hmx : m = x
      · simp [hmx]
      · simp [hmx]

/-- Each boolean list of length `n` occurs exactly once in `masks n`. -/
theorem count_masks {n : Nat} {m : List Bool} (hm : m.length = n) :
    (masks n).count m = 1 := by
  induction n generalizing m with
  | zero =>
      have hm0 : m = [] := List.length_eq_zero.mp hm
      simp [masks, hm0]
  | succ k ih =>
      cases m with
      | nil => simp at hm
      | cons b m' =>
          have hm' : m'.length = k := by simpa using hm
          cases b
          · rw [masks, List.count_append]
            have h1 : ((masks k).map (true :: ·)).count (false :: m') = 0 := by
              refine List.count_eq_zero.mpr ?_
              simp
            rw [h1, count_map_cons_masks, ih hm']
          · rw [masks, List.count_append]
            have h1 : ((masks k).map (false :: ·)).count (true :: m') = 0 := by
              refine List.count_eq_zero.mpr ?_
              simp
            rw [h1, count_map_cons_masks, ih hm']

/-- The generator emits, in order, the selection of the input under every
mask of `masks`, first element decided first. -/
theorem subsets_eq_map_select {α : Type} (l : List α) :
    subsets l = (masks l.length).map (select l) := by
  induction l with
  | nil => rfl
  | cons hd t ih =>
      have iH : subsetsCore t [] = (masks t.length).map (select t) := ih
      show subsetsCore (hd :: t) [] = _
      simp only [subsetsCore, List.nil_append, subsetsCore_eq_map_append t [hd],
        List.length_cons, masks, List.map_append, List.map_map, iH]
      simp [Function.comp_def, select]

/-- The empty sequence is emitted exactly once. -/
theorem count_nil_subsets {α : Type} [DecidableEq α] (l : List α) :
    (subsets l).count [] = 1 := by
  induction l with
  | nil => rfl
  | cons hd t ih =>
      show (subsetsCore (hd :: t) []).count [] = 1
      simp only [subsetsCore, List.nil_append, subsetsCore_eq_map_append t [hd],
        List.count_append]
      have h1 : ((subsetsCore t []).map ([hd] ++ ·)).count [] = 0 := by
        refine List.count_eq_zero.mpr ?_
        simp
      rw [h1]
      simpa using ih

/-- The full input is emitted exactly once. -/
theorem count_self_subsets {α : Type} [DecidableEq α] (l : List α) :
    (subsets l).count l = 1 := by
  induction l with
  | nil => rfl
  | cons hd t ih =>
      show (subsetsCore (hd :: t) []).count (hd :: t) = 1
      simp only [subsetsCore, List.nil_append, subsetsCore_eq_map_append t [hd],
        List.count_append]
      have h2 : (subsetsCore t []).count (hd :: t) = 0 := by
        refine List.count_eq_zero.mpr ?_
        intro hmem
        obtain ⟨s, hs, hrs⟩ := mem_subsetsCore hmem
        rw [List.nil_append] at hrs
        rw [← hrs] at hs
        exact absurd hs.length_le (by simp)
      have h1 : ∀ L : List (List α), (L.map (hd :: ·)).count (hd :: t) =
          L.count t := by
        intro L
        induction L with
        | nil => rfl
        | cons x L ihL =>
            simp only [List.map_cons, List.count_cons, ihL]
            by_cases hxt : t = x
            · simp [hxt]
            · simp [hxt]
      have hmap : (subsetsCore t []).map ([hd] ++ ·) =
          (subsetsCore t []).map (hd :: ·) := by
        simp
      rw [hmap, h1, h2]
      simpa using ih

/- ### Claim theorems -/

/-- C1: for every input sequence of length N, a call to `subsets` writes
exactly 2^N subsequences into the destination sink. -/
theorem subsets_card_pow_two (α : Type) (input : List α) :
    (subsets input).length = 2 ^ input.length :=
  length_subsetsCore input []

/-- C2: results are emitted in the canonical include-before-exclude order:
at each recursive step the branch that includes the head of the remainder
is fully emitted before the branch that excludes it; in particular `[0]`
yields `[0], []` and `[0,1,2]` yields
`[0,1,2], [0,1], [0,2], [0], [1,2], [1], [2], []` in that order. -/
theorem subsets_emission_order :
    (∀ (α : Type) (hd : α) (t acc : List α),
        subsetsCore (hd :: t) acc =
          subsetsCore t (acc ++ [hd]) ++ subsetsCore t acc) ∧
      subsets [(0 : ℤ)] = [[0], []] ∧
      subsets [(0 : ℤ), 1, 2] =
        [[0, 1, 2], [0, 1], [0, 2], [0], [1, 2], [1], [2], []] :=
  ⟨fun _ _ _ _ => rfl, by decide, by decide⟩

/-- C3: every emitted result is a sublist of the input, i.e. its elements
are drawn from strictly increasing input positions, no position is used
twice within one result, and the relative input order is preserved. -/
theorem subsets_sublist_of_input (α : Type) (input r : List α)
    (hr : r ∈ subsets input) : r.Sublist input := by
  obtain ⟨s, hs, hrs⟩ := mem_subsetsCore hr
  rw [List.nil_append] at hrs
  rw [hrs]
  exact hs

/-- Witness for C3 at the concrete input `[1, 2]` and result `[1]`. -/
theorem subsets_sublist_of_input_witness :
    [(1 : ℤ)] ∈ subsets [(1 : ℤ), 2] ∧ List.Sublist [(1 : ℤ)] [1, 2] :=
  ⟨by decide, subsets_sublist_of_input ℤ [1, 2] [1] (by decide)⟩

/-- C4: for every input, the empty subsequence occurs exactly once in the
emitted collection, and the full input sequence occurs exactly once. -/
theorem subsets_empty_and_full_once (α : Type) [DecidableEq α]
    (input : List α) :
    (subsets input).count [] = 1 ∧ (subsets input).count input = 1 :=
  ⟨count_nil_subsets input, count_self_subsets input⟩

/-- C5: results are not deduplicated by value: the input `[5, 5]` yields
exactly the four results `[5,5], [5], [5], []` in that order, the
value-identical `[5]` appearing twice, once per position subset. -/
theorem subsets_no_value_dedup :
    subsets [(5 : ℤ), 5] = [[5, 5], [5], [5], []] ∧
      (subsets [(5 : ℤ), 5]).count [5] = 2 :=
  ⟨by decide, by decide⟩

/-- C6: the empty input is valid and yields exactly one result, the empty
subsequence. -/
theorem subsets_empty_input :
    subsets ([] : List ℤ) = [[]] ∧ (subsets ([] : List ℤ)).length = 1 :=
  ⟨rfl, rfl⟩

/-- C7: the generator is deterministic: two calls on the same input, over
any two sink states, append identical result collections — the same
subsequences in the same order. -/
theorem subsets_deterministic (α : Type) (input : List α)
    (sink₁ sink₂ : List (List α)) :
    (subsetsS input sink₁).drop sink₁.length =
      (subsetsS input sink₂).drop sink₂.length := by
  simp [subsetsS, subsetsCoreS_eq]

/-- C8: a call to `subsets` has no observable effect on the destination
other than appending its results: the prior sink contents are preserved
unchanged as a prefix, and the appended part is a pure function of the
(read-only) input. -/
theorem subsetsS_frame (α : Type) (input : List α) (sink : List (List α)) :
    subsetsS input sink = sink ++ subsets input :=
  subsetsCoreS_eq input [] sink

/-- C9: the computation terminates, with recursion depth at most N: fuel
equal to the input length already makes the fuel-indexed recursion, which
spends one unit per recursive call, run to completion and agree with the
total function. -/
theorem subsets_terminating_depth (α : Type) (input : List α) :
    subsetsCoreFuel input.length input [] = some (subsets input) :=
  subsetsCoreFuel_eq input input.length [] (le_refl _)

/-- C10: the emitted collection is exactly the image, in order, of all
2^N inclusion masks over the input positions, each mask (equivalently,
each subset of positions) being realized by exactly one emitted result:
the map from results to position subsets is a bijection onto the powerset
of the positions. -/
theorem subsets_mask_bijection (α : Type) (input : List α) :
    subsets input = (masks input.length).map (select input) ∧
      (∀ m : List Bool, m ∈ masks input.length ↔ m.length = input.length) ∧
      ∀ m : List Bool, m.length = input.length →
        (masks input.length).count m = 1 :=
  ⟨subsets_eq_map_select input, fun _ => mem_masks, fun _ hm => count_masks hm⟩

/-- Witness for C10 at the concrete input `[7, 9]` and mask
`[true, false]`. -/
theorem subsets_mask_bijection_witness :
    subsets [(7 : ℤ), 9] = (masks 2).map (select [(7 : ℤ), 9]) ∧
      ([true, false] ∈ masks 2 ↔ ([true, false] : List Bool).length = 2) ∧
      (masks 2).count [true, false] = 1 :=
  ⟨(subsets_mask_bijection ℤ [7, 9]).1,
    (subsets_mask_bijection ℤ [7, 9]).2.1 [true, false],
    (subsets_mask_bijection ℤ [7, 9]).2.2 [true, false] (by decide)⟩
